import Mathlib

/-!
Verification development for the persona-registry repository.

The registry core (`src/PersonaRegistry.ts`) keeps two in-memory
collections of persona records (active and archived), both JavaScript
`Map`s keyed by id, mutates them through create / update / duplicate /
archive, and persists them through a storage driver behind a lodash
debounce.  The bundled storage adapter (`JsonStorageDriver`) serializes
the two collections as arrays inside one JSON document.

The embedding below mirrors that code:
* JavaScript `Map`s become insertion-ordered association lists with the
  `set` / `get` / `delete` / `values` operations of `Map`;
* the open-ended `settings` object (`Record<string, any>`) becomes an
  insertion-ordered list of key/JSON-value pairs;
* `new Date().toISOString()` and `uuidv4()` are the two sources of
  nondeterminism and are passed in as explicit `now` / `newId` arguments;
* the lodash debounce (leading:false, trailing:true) together with the
  registry's dirty flag is modelled as a small timed event semantics:
  every mutation re-arms a single timer at `now + debounceSaveMs`, and a
  timer that fires runs `_saveIfDirty`.
-/

/-- A scalar JSON value. -/
inductive JScalar where
  | str (s : String)
  | num (n : Int)
  | jbool (b : Bool)
  | jnull
deriving DecidableEq, Repr

/-- A JSON-like value, modelling what a persona's
`settings : Record<string, any>` may hold.  The registry never inspects
these values — it only copies them and compares them for (stringify)
equality — so the value space is modelled one structural level deep;
objects and arrays keep insertion order, as JavaScript values do. -/
inductive JVal where
  | scalar (v : JScalar)
  | arr (xs : List JScalar)
  | obj (fields : List (String × JScalar))
deriving DecidableEq, Repr

/-- An entry of a persona's changelog (types.ts, `ChangelogEntry`). -/
structure ChangelogEntry where
  timestamp : String
  action : String
  details : Option String
deriving DecidableEq, Repr

/-- The persona record (types.ts, `Persona`).  Optional fields are
`Option`s; absent and explicitly-undefined are identified, as both read
back as `undefined` in JavaScript. -/
structure Persona where
  id : String
  name : String
  description : Option String
  instructions : Option String
  tags : Option (List String)
  settings : Option (List (String × JVal))
  createdAt : String
  updatedAt : String
  changelog : List ChangelogEntry
deriving DecidableEq, Repr

/-- Input for `createPersona` (types.ts, `CreatePersonaInput`):
all content fields, no id / timestamps / changelog. -/
structure CreatePersonaInput where
  name : String
  description : Option String
  instructions : Option String
  tags : Option (List String)
  settings : Option (List (String × JVal))
deriving DecidableEq, Repr

/-- A partial update for `updatePersona` (`Partial<Omit<Persona, ...>>`).
The outer `Option` records whether the key is present in the update
object at all; for the optional persona fields the inner `Option` is the
field's own value space (which includes `undefined`). -/
structure UpdateInput where
  name : Option String
  description : Option (Option String)
  instructions : Option (Option String)
  tags : Option (Option (List String))
  settings : Option (Option (List (String × JVal)))
deriving DecidableEq, Repr

/-! ### JavaScript `Map` as an insertion-ordered association list -/

/-- `Map.prototype.set`: replace in place if the key is present,
otherwise append. -/
def alistSet {α : Type} (m : List (String × α)) (k : String) (v : α) :
    List (String × α) :=
  match m with
  | [] => [(k, v)]
  | (k', v') :: rest =>
      if k' = k then (k, v) :: rest else (k', v') :: alistSet rest k v

/-- `Map.prototype.get`. -/
def alistGet {α : Type} (m : List (String × α)) (k : String) : Option α :=
  match m with
  | [] => none
  | (k', v) :: rest => if k' = k then some v else alistGet rest k

/-- `Map.prototype.has`. -/
def alistHas {α : Type} (m : List (String × α)) (k : String) : Bool :=
  (alistGet m k).isSome

/-- `Map.prototype.delete` (a `Map` holds each key at most once, so
removing every pair with the key is the same operation). -/
def alistDelete {α : Type} (m : List (String × α)) (k : String) :
    List (String × α) :=
  m.filter (fun kp => kp.1 ≠ k)

/-- `Array.from(map.values())`: values in insertion order. -/
def alistValues {α : Type} (m : List (String × α)) : List α :=
  m.map Prod.snd

/-! ### Registry state -/

/-- Error conditions surfaced by the registry core (thrown `Error`s in
the source, distinguished here by their condition). -/
inductive RegErr where
  | nameConflict (name : String)
  | notFound (id : String)
  | archivedSource (id : String)
  | archivedImmutable (id : String)
  | internalLimit (base : String)
deriving DecidableEq, Repr

/-- The in-memory state of a `PersonaRegistry`: the two collections, the
dirty flag, and the resolved options. -/
structure Registry where
  personas : List (String × Persona)
  archivedPersonas : List (String × Persona)
  isDirty : Bool
  autoSaveEnabled : Bool
  debounceSaveMs : Nat
deriving DecidableEq, Repr

/-- Names of the active records (`Array.from(this.personas.values()).map(p => p.name)`). -/
def activeNames (r : Registry) : List String :=
  (alistValues r.personas).map Persona.name

/-- Names in either collection, as consulted by `_findAvailableCopyName`. -/
def usedNames (r : Registry) : List String :=
  (alistValues r.personas).map Persona.name
    ++ (alistValues r.archivedPersonas).map Persona.name

/-! ### Core operations (PersonaRegistry.ts) -/

/-- `createPersona(input, originalIdForDuplication?)`.  The fresh uuid and
the ISO timestamp are passed in as `newId` and `now`.  The
`duplicated_from` entry is pushed under the source's truthiness test
`if (originalIdForDuplication)`, so a present but empty-string source id
— like an absent one — appends no entry. -/
def createPersona (r : Registry) (input : CreatePersonaInput)
    (originalIdForDuplication : Option String) (newId now : String) :
    Except RegErr (Persona × Registry) :=
  if input.name ∈ activeNames r then
    .error (.nameConflict input.name)
  else
    let initialChangelog : List ChangelogEntry :=
      ⟨now, "created", none⟩ ::
        (match originalIdForDuplication with
         | some o =>
             if o ≠ "" then [⟨now, "duplicated_from", some ("Source ID: " ++ o)⟩]
             else []
         | none => [])
    let newPersona : Persona :=
      { id := newId
        name := input.name
        description := input.description
        instructions := input.instructions
        tags := input.tags
        settings := input.settings
        createdAt := now
        updatedAt := now
        changelog := initialChangelog }
    .ok (newPersona,
      { r with personas := alistSet r.personas newPersona.id newPersona
               isDirty := true })

/-- `listPersonas()`: the active records in insertion order. -/
def listPersonas (r : Registry) : List Persona :=
  alistValues r.personas

/-- `getPersona(id)`: active records only. -/
def getPersona (r : Registry) (id : String) : Option Persona :=
  alistGet r.personas id

/-- `findByTag(tag)`: active records whose tag list contains the tag;
records with no tags never match (`persona.tags?.includes(tag)`). -/
def findByTag (r : Registry) (tag : String) : List Persona :=
  (alistValues r.personas).filter (fun p =>
    match p.tags with
    | some ts => tag ∈ ts
    | none => false)

/-! ### Copy-name search (`_findAvailableCopyName`) -/

/-- ECMAScript line terminators, which `.` in the copy-name regex does
not match. -/
def isLineTerm (c : Char) : Bool :=
  c == '\n' || c == '\r' || c == Char.ofNat 0x2028 || c == Char.ofNat 0x2029

/-- `true` when no character is a line terminator, i.e. when `.*` can
match the string. -/
def noLineTerms (cs : List Char) : Bool :=
  cs.all (fun c => !(isLineTerm c))

/-- The base-name extraction of `_findAvailableCopyName`: match
`/^(.*) - Copy(?: - (\d+))?$/` against the name and return the first
capture group, or the name itself when the regex does not match.
`.` does not match line terminators, so a name whose prefix before the
suffix contains one is returned unchanged. -/
def stripCopySuffix (name : String) : String :=
  let rev := name.data.reverse
  if (" - Copy".data.reverse).isPrefixOf rev && noLineTerms (rev.drop 7) then
    String.mk (rev.drop 7).reverse
  else
    let ds := rev.takeWhile Char.isDigit
    let rest := rev.drop ds.length
    if !ds.isEmpty && (" - Copy - ".data.reverse).isPrefixOf rest then
      let baseRev := rest.drop 10
      if noLineTerms baseRev then String.mk baseRev.reverse else name
    else
      name

/-- The candidate name tried at a given counter value: counter 1 is the
special case without a numeric suffix. -/
def copyName (root : String) (counter : Nat) : String :=
  if counter = 1 then root ++ " - Copy"
  else root ++ " - Copy - " ++ toString counter

/-- The search loop of `_findAvailableCopyName`: try successive counters
until an unused name is found; the source throws once the counter passes
1000, i.e. after 1000 failed attempts, which the fuel argument mirrors. -/
def findFrom (used : List String) (root : String) :
    Nat → Nat → Except RegErr String
  | _, 0 => .error (.internalLimit root)
  | counter, fuel + 1 =>
      let nm := copyName root counter
      if nm ∈ used then findFrom used root (counter + 1) fuel
      else .ok nm

/-- `_findAvailableCopyName(baseName)`. -/
def findAvailableCopyName (r : Registry) (baseName : String) :
    Except RegErr String :=
  findFrom (usedNames r) (stripCopySuffix baseName) 1 1000

/-- `duplicatePersona(originalId)`; `newId` and `now` feed the inner
`createPersona` call. -/
def duplicatePersona (r : Registry) (originalId newId now : String) :
    Except RegErr (Persona × Registry) :=
  match alistGet r.personas originalId with
  | none =>
      if alistHas r.archivedPersonas originalId then
        .error (.archivedSource originalId)
      else
        .error (.notFound originalId)
  | some originalPersona =>
    match findAvailableCopyName r originalPersona.name with
    | .error e => .error e
    | .ok newName =>
      let duplicateInput : CreatePersonaInput :=
        { name := newName
          description := originalPersona.description
          instructions := originalPersona.instructions
          tags := originalPersona.tags
          settings := originalPersona.settings }
      createPersona r duplicateInput (some originalId) newId now

/-! ### `updatePersona` -/

/-- The changed-field computation of `updatePersona`: a field counts as
changed when it is present in the update object and its value differs
from the current one (for `tags`/`settings` the source compares
`JSON.stringify` output, which on these ordered structures coincides
with structural equality).  The source iterates `Object.keys(updates)`
in the caller's key order; the declaration order is used here. -/
def changedFields (p : Persona) (u : UpdateInput) : List String :=
  (match u.name with
   | some n => if n ≠ p.name then ["name"] else []
   | none => []) ++
  (match u.description with
   | some d => if d ≠ p.description then ["description"] else []
   | none => []) ++
  (match u.instructions with
   | some i => if i ≠ p.instructions then ["instructions"] else []
   | none => []) ++
  (match u.tags with
   | some t => if t ≠ p.tags then ["tags"] else []
   | none => []) ++
  (match u.settings with
   | some s => if s ≠ p.settings then ["settings"] else []
   | none => [])

/-- The spread `{ ...persona, ...updates }`: fields present in the update
object overwrite the current ones. -/
def applyUpdates (p : Persona) (u : UpdateInput) : Persona :=
  { p with
    name := u.name.getD p.name
    description := match u.description with | some d => d | none => p.description
    instructions := match u.instructions with | some i => i | none => p.instructions
    tags := match u.tags with | some t => t | none => p.tags
    settings := match u.settings with | some s => s | none => p.settings }

/-- The tail of `updatePersona` after the checks: compute the changed
fields; when none changed return the original record and leave the
registry untouched, otherwise merge, stamp `updatedAt`, append one
`updated` changelog entry, store, and mark dirty.  The changed-field
list is also returned so the caller can observe whether the debounced
save was triggered. -/
def updateApply (r : Registry) (id : String) (persona : Persona)
    (u : UpdateInput) (now : String) : Persona × Registry × List String :=
  let cf := changedFields persona u
  if cf.isEmpty then
    (persona, r, [])
  else
    let newChangelog := persona.changelog ++
      [⟨now, "updated", some ("Updated fields: " ++ String.intercalate ", " cf)⟩]
    let updatedPersona : Persona :=
      { applyUpdates persona u with
        id := persona.id
        createdAt := persona.createdAt
        updatedAt := now
        changelog := newChangelog }
    (updatedPersona,
     { r with personas := alistSet r.personas id updatedPersona
              isDirty := true },
     cf)

/-- `updatePersona(id, updates)`.  The name-collision check translates
`if (updates.name && updates.name !== persona.name)`: the new name must
be present, truthy (a non-empty string), and different from the current
name for the check to run at all. -/
def updatePersona (r : Registry) (id : String) (u : UpdateInput)
    (now : String) : Except RegErr (Persona × Registry × List String) :=
  match alistGet r.personas id with
  | none =>
      if alistHas r.archivedPersonas id then
        .error (.archivedImmutable id)
      else
        .error (.notFound id)
  | some persona =>
      match u.name with
      | some n =>
          if n ≠ "" ∧ n ≠ persona.name ∧ n ∈ activeNames r then
            .error (.nameConflict n)
          else
            .ok (updateApply r id persona u now)
      | none => .ok (updateApply r id persona u now)

/-- `archivePersona(id)`: `false` and no change when the id is not
active; otherwise append an `archived` changelog entry, move the record
into the archived map under the same id, remove it from the active map,
and mark dirty. -/
def archivePersona (r : Registry) (id now : String) : Bool × Registry :=
  match alistGet r.personas id with
  | none => (false, r)
  | some personaToArchive =>
      let archivedPersonaWithLog : Persona :=
        { personaToArchive with
          changelog := personaToArchive.changelog ++ [⟨now, "archived", none⟩] }
      (true,
       { r with
         archivedPersonas :=
           alistSet r.archivedPersonas id archivedPersonaWithLog
         personas := alistDelete r.personas id
         isDirty := true })

/-! ### Storage (types.ts `PersonaStorageState`, drivers/JsonStorageDriver.ts)

The driver serializes the two maps as arrays inside one JSON document
(`JSON.stringify`) and reads them back with `JSON.parse`.  On the data
actually written (plain strings, arrays and objects) stringify-then-parse
is the identity, so the document is modelled as the structured value
itself; the file-system and byte-level JSON codec are the Node runtime's,
not this repository's code. -/

/-- The unit of persistence (types.ts, `PersonaStorageState`): both
collections as maps keyed by id. -/
structure PersonaStorageState where
  active : List (String × Persona)
  archived : List (String × Persona)
deriving DecidableEq, Repr

/-- The structure stored in the JSON file (`JsonFileStructure`): the two
collections as arrays. -/
structure JsonFileStructure where
  active : List Persona
  archived : List Persona
deriving DecidableEq, Repr

namespace JsonStorageDriver

/-- `_arrayToMap`: rebuild a map keyed by each record's `id`.  The
source skips entries whose `id` is not a string; in this typed model
every record carries a string id, so no entry is skipped. -/
def arrayToMap (personasArray : List Persona) : List (String × Persona) :=
  personasArray.foldl (fun m p => alistSet m p.id p) []

/-- `save(state)`: write both collections as arrays of their values. -/
def save (state : PersonaStorageState) : JsonFileStructure :=
  { active := alistValues state.active
    archived := alistValues state.archived }

/-- `load()`: rebuild both maps from the stored arrays. -/
def load (fileData : JsonFileStructure) : PersonaStorageState :=
  { active := arrayToMap fileData.active
    archived := arrayToMap fileData.archived }

end JsonStorageDriver

/-! ### Debounced persistence as a timed event semantics

`_debouncedSave` is `debounce(_saveIfDirty, debounceSaveMs,
{leading:false, trailing:true})`: every call re-arms one shared timer to
fire `debounceSaveMs` after the call, and the trailing edge runs
`_saveIfDirty`, which saves through the storage driver only when
`autoSaveEnabled` and the dirty flag is set.  `flush()` saves
immediately and clears the dirty flag without touching the timer.  The
semantics below drives the registry with time-stamped operations on a
single cooperative timeline and records every state handed to the
storage adapter's `save`. -/

/-- The `PersonaStorageState` handed to the storage driver by
`flush` / `_saveIfDirty`. -/
def stateToSave (r : Registry) : PersonaStorageState :=
  { active := r.personas, archived := r.archivedPersonas }

/-- A registry together with its pending debounce timer (the absolute
fire time) and the log of adapter saves performed so far. -/
structure DebSys where
  reg : Registry
  timerAt : Option Nat
  saves : List (Nat × PersonaStorageState)
deriving DecidableEq, Repr

/-- The trailing edge of the debounce: run `_saveIfDirty` at the
scheduled time and clear the timer. -/
def fireTimer (s : DebSys) : DebSys :=
  match s.timerAt with
  | none => s
  | some d =>
      if s.reg.autoSaveEnabled && s.reg.isDirty then
        { reg := { s.reg with isDirty := false }
          timerAt := none
          saves := s.saves ++ [(d, stateToSave s.reg)] }
      else
        { s with timerAt := none }

/-- Deliver the timer callback if its fire time has been reached. -/
def fireDue (s : DebSys) (t : Nat) : DebSys :=
  match s.timerAt with
  | some d => if d ≤ t then fireTimer s else s
  | none => s

/-- A registry operation issued by a caller. -/
inductive RegOp where
  | createOp (input : CreatePersonaInput) (newId : String)
  | updateOp (id : String) (u : UpdateInput)
  | archiveOp (id : String)
  | flushOp
deriving DecidableEq, Repr

/-- Discriminates the explicit-flush operation from the mutations. -/
def RegOp.isFlush : RegOp → Bool
  | .flushOp => true
  | _ => false

/-- Apply one mutating operation to the registry.  The boolean reports
whether the operation called `_debouncedSave()` (re-armed the timer): a
thrown error or a no-op update leaves the state unchanged and does not
re-arm. -/
def applyMut (r : Registry) (op : RegOp) (now : String) : Registry × Bool :=
  match op with
  | .createOp input newId =>
      match createPersona r input none newId now with
      | .ok (_, r') => (r', true)
      | .error _ => (r, false)
  | .updateOp id u =>
      match updatePersona r id u now with
      | .ok (_, r', cf) => (r', !cf.isEmpty)
      | .error _ => (r, false)
  | .archiveOp id =>
      let (b, r') := archivePersona r id now
      (r', b)
  | .flushOp => (r, false)

/-- Process one time-stamped operation: first deliver the timer callback
if it is due, then run the operation.  `flush()` saves the full current
state at once and clears the dirty flag (the timer, if armed, is left to
fire as a no-op); a mutating operation that called `_debouncedSave()`
re-arms the timer to `t + debounceSaveMs`. -/
def stepEv (D : Nat) (s : DebSys) (t : Nat) (op : RegOp) : DebSys :=
  let s1 := fireDue s t
  if op.isFlush then
    { s1 with
      saves := s1.saves ++ [(t, stateToSave s1.reg)]
      reg := { s1.reg with isDirty := false } }
  else
    let (r', armed) := applyMut s1.reg op (toString t)
    { s1 with reg := r'
              timerAt := if armed then some (t + D) else s1.timerAt }

/-- Run a time-ordered list of operations. -/
def runEvents (D : Nat) (s : DebSys) : List (Nat × RegOp) → DebSys
  | [] => s
  | (t, op) :: evs => runEvents D (stepEv D s t op) evs

/-- After the last operation the cooperative timeline runs on and any
pending timer fires at its scheduled instant. -/
def finishRun (s : DebSys) : DebSys :=
  fireTimer s

/-- The registry reached by a list of mutations, ignoring timing. -/
def foldMut (r : Registry) : List (Nat × RegOp) → Registry
  | [] => r
  | (t, op) :: evs => foldMut (applyMut r op (toString t)).1 evs

/-- The time of the last event, `tp` when there is none. -/
def lastTime (tp : Nat) : List (Nat × RegOp) → Nat
  | [] => tp
  | (t, _) :: evs => lastTime t evs

/-- `true` of an operation list in which every operation is a mutation
(not a flush), actually mutates — i.e. calls `_debouncedSave()` — in the
state it meets, and is issued no earlier than the previous operation and
strictly within the debounce interval after it. -/
def effectiveChain (D : Nat) : Registry → Nat → List (Nat × RegOp) → Bool
  | _, _, [] => true
  | r, tp, (t, op) :: evs =>
      decide (tp ≤ t) && decide (t < tp + D) && !op.isFlush &&
      (applyMut r op (toString t)).2 &&
      effectiveChain D (applyMut r op (toString t)).1 t evs

/-! ### Association-list lemmas -/

theorem alistGet_mem {α : Type} {m : List (String × α)} {k : String} {v : α}
    (h : alistGet m k = some v) : (k, v) ∈ m := by
  induction m with
  | nil => simp [alistGet] at h
  | cons kp rest ih =>
      obtain ⟨k', v'⟩ := kp
      by_cases hk : k' = k
      · subst hk
        simp [alistGet] at h
        simp [h]
      · simp [alistGet, hk] at h
        exact List.mem_cons_of_mem _ (ih h)

theorem mem_alistSet {α : Type} {m : List (String × α)} {k : String} {v : α}
    {kp : String × α} (h : kp ∈ alistSet m k v) : kp = (k, v) ∨ kp ∈ m := by
  induction m with
  | nil => simp [alistSet] at h; simp [h]
  | cons hd rest ih =>
      obtain ⟨k', v'⟩ := hd
      by_cases hk : k' = k
      · subst hk
        simp [alistSet] at h
        rcases h with h | h
        · exact Or.inl h
        · exact Or.inr (List.mem_cons_of_mem _ h)
      · simp [alistSet, hk] at h
        rcases h with h | h
        · exact Or.inr (by simp [h])
        · rcases ih h with h' | h'
          · exact Or.inl h'
          · exact Or.inr (List.mem_cons_of_mem _ h')

theorem alistSet_of_not_mem {α : Type} {m : List (String × α)} {k : String}
    (v : α) (h : k ∉ m.map Prod.fst) : alistSet m k v = m ++ [(k, v)] := by
  induction m with
  | nil => simp [alistSet]
  | cons hd rest ih =>
      obtain ⟨k', v'⟩ := hd
      simp only [List.map_cons, List.mem_cons] at h
      push_neg at h
      have h1 : ¬ k' = k := fun hh => h.1 hh.symm
      simp [alistSet, h1, ih h.2]

theorem keys_alistSet_of_mem {α : Type} {m : List (String × α)} {k : String}
    (v : α) (h : k ∈ m.map Prod.fst) :
    (alistSet m k v).map Prod.fst = m.map Prod.fst := by
  induction m with
  | nil => simp at h
  | cons hd rest ih =>
      obtain ⟨k', v'⟩ := hd
      by_cases hk : k' = k
      · subst hk; simp [alistSet]
      · simp only [List.map_cons, List.mem_cons] at h
        rcases h with h | h
        · exact absurd h.symm hk
        · simp [alistSet, hk, ih h]

theorem alistGet_set_self {α : Type} (m : List (String × α)) (k : String)
    (v : α) : alistGet (alistSet m k v) k = some v := by
  induction m with
  | nil => simp [alistSet, alistGet]
  | cons hd rest ih =>
      obtain ⟨k', v'⟩ := hd
      by_cases hk : k' = k
      · subst hk; simp [alistSet, alistGet]
      · simp [alistSet, alistGet, hk, ih]

theorem alistGet_delete_self {α : Type} (m : List (String × α)) (k : String) :
    alistGet (alistDelete m k) k = none := by
  induction m with
  | nil => simp [alistDelete, alistGet]
  | cons hd rest ih =>
      obtain ⟨k', v'⟩ := hd
      by_cases hk : k' = k
      · subst hk; simpa [alistDelete, alistGet] using ih
      · simpa [alistDelete, alistGet, hk] using ih

theorem mem_alistDelete {α : Type} {m : List (String × α)} {k : String}
    {kp : String × α} : kp ∈ alistDelete m k ↔ kp ∈ m ∧ kp.1 ≠ k := by
  simp [alistDelete]

theorem mem_values_of_mem {α : Type} {m : List (String × α)}
    {kp : String × α} (h : kp ∈ m) : kp.2 ∈ alistValues m :=
  List.mem_map_of_mem _ h

theorem mem_values_iff {α : Type} {m : List (String × α)} {v : α} :
    v ∈ alistValues m ↔ ∃ k, (k, v) ∈ m := by
  constructor
  · intro h
    obtain ⟨⟨k, v'⟩, hm, hv⟩ := List.mem_map.mp h
    exact ⟨k, by simpa [← hv] using hm⟩
  · rintro ⟨k, hm⟩
    exact List.mem_map.mpr ⟨(k, v), hm, rfl⟩

theorem alistGet_eq_none_iff {α : Type} {m : List (String × α)} {k : String} :
    alistGet m k = none ↔ k ∉ m.map Prod.fst := by
  induction m with
  | nil => simp [alistGet]
  | cons hd rest ih =>
      obtain ⟨k', v'⟩ := hd
      by_cases hk : k' = k
      · subst hk; simp [alistGet]
      · simp [alistGet, hk, ih, Ne.symm hk]

theorem keys_delete_sublist {α : Type} (m : List (String × α)) (k : String) :
    ((alistDelete m k).map Prod.fst).Sublist (m.map Prod.fst) :=
  (List.filter_sublist m).map Prod.fst

theorem mem_keys_delete {α : Type} {m : List (String × α)} {k x : String}
    (h : x ∈ (alistDelete m k).map Prod.fst) :
    x ∈ m.map Prod.fst ∧ x ≠ k := by
  obtain ⟨kp, hkp, hx⟩ := List.mem_map.mp h
  have := mem_alistDelete.mp hkp
  exact ⟨hx ▸ List.mem_map_of_mem Prod.fst this.1, hx ▸ this.2⟩

/-! ### C5: storage round-trip -/

theorem foldl_alistSet_append (ps : List Persona) :
    ∀ acc : List (String × Persona),
      (∀ p ∈ ps, p.id ∉ acc.map Prod.fst) → (ps.map Persona.id).Nodup →
      ps.foldl (fun m p => alistSet m p.id p) acc
        = acc ++ ps.map (fun p => (p.id, p)) := by
  induction ps with
  | nil => intro acc _ _; simp
  | cons p ps ih =>
      intro acc hacc hnd
      simp only [List.foldl_cons]
      rw [alistSet_of_not_mem p (hacc p (List.mem_cons_self p ps))]
      simp only [List.map_cons, List.nodup_cons] at hnd
      rw [ih (acc ++ [(p.id, p)])]
      · simp
      · intro q hq
        simp only [List.map_append, List.mem_append, List.map_cons, List.map_nil,
          List.mem_singleton]
        rintro (hmem | hid)
        · exact hacc q (List.mem_cons_of_mem p hq) hmem
        · exact hnd.1 (hid ▸ List.mem_map_of_mem Persona.id hq)
      · exact hnd.2

theorem values_keyed_eq (m : List (String × Persona))
    (hk : ∀ kp ∈ m, kp.1 = kp.2.id) :
    (alistValues m).map (fun p => (p.id, p)) = m := by
  induction m with
  | nil => simp [alistValues]
  | cons hd rest ih =>
      obtain ⟨k, v⟩ := hd
      have hhd : k = v.id := hk (k, v) (List.mem_cons_self _ _)
      simp only [alistValues, List.map_cons]
      rw [← hhd]
      congr 1
      exact ih fun kp h => hk kp (List.mem_cons_of_mem _ h)

theorem arrayToMap_values (m : List (String × Persona))
    (hk : ∀ kp ∈ m, kp.1 = kp.2.id) (hn : (m.map Prod.fst).Nodup) :
    JsonStorageDriver.arrayToMap (alistValues m) = m := by
  have hids : (alistValues m).map Persona.id = m.map Prod.fst := by
    simp only [alistValues, List.map_map]
    exact List.map_congr_left fun kp h => ((hk kp h).symm)
  unfold JsonStorageDriver.arrayToMap
  rw [foldl_alistSet_append (alistValues m) [] (by simp) (by rw [hids]; exact hn)]
  simpa using values_keyed_eq m hk

/-- C5 — Storage round-trip: for every registry state whose two
collections are keyed by the records' own ids (as every state the
registry hands to the adapter is), `save` followed by `load` rebuilds
exactly the same state: same id-sets and the field-for-field identical
record under every id, independently of collection order. -/
theorem storage_round_trip (s : PersonaStorageState)
    (hka : ∀ kp ∈ s.active, kp.1 = kp.2.id)
    (hna : (s.active.map Prod.fst).Nodup)
    (hkb : ∀ kp ∈ s.archived, kp.1 = kp.2.id)
    (hnb : (s.archived.map Prod.fst).Nodup) :
    JsonStorageDriver.load (JsonStorageDriver.save s) = s := by
  unfold JsonStorageDriver.load JsonStorageDriver.save
  cases s with
  | mk active archived =>
      simp only
      rw [arrayToMap_values active hka hna, arrayToMap_values archived hkb hnb]

/-- Closed witness for the round-trip theorem on a two-record state. -/
theorem storage_round_trip_witness :
    JsonStorageDriver.load (JsonStorageDriver.save
      { active := [("a1", { id := "a1", name := "Solver", description := some "d",
                            instructions := none, tags := some ["math"],
                            settings := some [("temperature", JVal.scalar (JScalar.num 1))],
                            createdAt := "t0", updatedAt := "t0",
                            changelog := [⟨"t0", "created", none⟩] })],
        archived := [("b1", { id := "b1", name := "Old", description := none,
                              instructions := some "i", tags := none, settings := none,
                              createdAt := "t0", updatedAt := "t1",
                              changelog := [⟨"t0", "created", none⟩, ⟨"t1", "archived", none⟩] })] })
      = { active := [("a1", { id := "a1", name := "Solver", description := some "d",
                              instructions := none, tags := some ["math"],
                              settings := some [("temperature", JVal.scalar (JScalar.num 1))],
                              createdAt := "t0", updatedAt := "t0",
                              changelog := [⟨"t0", "created", none⟩] })],
          archived := [("b1", { id := "b1", name := "Old", description := none,
                                instructions := some "i", tags := none, settings := none,
                                createdAt := "t0", updatedAt := "t1",
                                changelog := [⟨"t0", "created", none⟩, ⟨"t1", "archived", none⟩] })] } :=
  storage_round_trip _ (by decide) (by decide) (by decide) (by decide)

theorem mem_alistSet_self {α : Type} (m : List (String × α)) (k : String)
    (v : α) : (k, v) ∈ alistSet m k v :=
  alistGet_mem (alistGet_set_self m k v)

/-! ### C6 / C7: createPersona -/

/-- C6 (amended) — For every create input whose name is not an active
record's name, and a generated id distinct from every existing id (the
model of uuid freshness), `createPersona` succeeds with a record whose
id is that fresh id, whose `createdAt` equals `updatedAt`, whose
changelog is one `created` entry plus — exactly when invoked by
duplication with a **non-empty** (truthy) source id — a
`duplicated_from` entry carrying the source id, and the record appears
in `listPersonas()` immediately. -/
theorem createPersona_success (r : Registry) (input : CreatePersonaInput)
    (origId : Option String) (newId now : String)
    (hname : input.name ∉ activeNames r)
    (hid1 : newId ∉ r.personas.map Prod.fst)
    (hid2 : newId ∉ r.archivedPersonas.map Prod.fst) :
    ∃ p r', createPersona r input origId newId now = .ok (p, r')
      ∧ p.id = newId
      ∧ p.id ∉ r.personas.map Prod.fst
      ∧ p.id ∉ r.archivedPersonas.map Prod.fst
      ∧ p.createdAt = now ∧ p.updatedAt = now
      ∧ p.changelog = ⟨now, "created", none⟩ ::
          (match origId with
           | some o =>
               if o ≠ "" then [⟨now, "duplicated_from", some ("Source ID: " ++ o)⟩]
               else []
           | none => [])
      ∧ p ∈ listPersonas r' := by
  unfold createPersona
  rw [if_neg hname]
  refine ⟨_, _, rfl, rfl, hid1, hid2, rfl, rfl, rfl, ?_⟩
  exact mem_values_of_mem (mem_alistSet_self _ _ _)

def pEmptyId : Persona :=
  { id := "", name := "Z", description := none, instructions := none,
    tags := none, settings := none, createdAt := "t0", updatedAt := "t0",
    changelog := [⟨"t0", "created", none⟩] }

def regEmptyId : Registry :=
  { personas := [("", pEmptyId)], archivedPersonas := [], isDirty := false,
    autoSaveEnabled := true, debounceSaveMs := 5000 }

/-- C6 counterexample — the claim fails on the code when the source id
is the empty string.  The storage driver accepts any record whose id is
a string, `""` included, so a loaded registry can hold an active record
under id `""`; duplicating it reaches `createPersona` with source id
`""`, and the truthiness guard `if (originalIdForDuplication)` then
skips the `duplicated_from` entry: the new record's changelog is the
single `created` entry, not the `created` entry plus a `duplicated_from`
entry carrying the source id as the claim asserts for every invocation
via `duplicatePersona`. -/
theorem createPersona_duplicated_from_cex :
    alistGet regEmptyId.personas "" = some pEmptyId
    ∧ (duplicatePersona regEmptyId "" "9" "T").map (fun x => x.1.changelog)
        = .ok [⟨"T", "created", none⟩]
    ∧ ([⟨"T", "created", none⟩] : List ChangelogEntry)
        ≠ [⟨"T", "created", none⟩,
           ⟨"T", "duplicated_from", some ("Source ID: " ++ "")⟩] :=
  ⟨rfl, rfl, by decide⟩

def regEmpty : Registry :=
  { personas := [], archivedPersonas := [], isDirty := false,
    autoSaveEnabled := true, debounceSaveMs := 5000 }

def inputSolver : CreatePersonaInput :=
  { name := "Solver", description := none, instructions := none,
    tags := some ["math"], settings := none }

/-- Closed witness: creating "Solver" in an empty registry yields the
fresh id and the record is listed immediately. -/
theorem createPersona_success_witness :
    (createPersona regEmpty inputSolver none "id1" "T").map (fun x => x.1.id)
        = Except.ok "id1"
    ∧ (createPersona regEmpty inputSolver none "id1" "T").map
        (fun x => decide (x.1 ∈ listPersonas x.2)) = Except.ok true := by
  obtain ⟨p, r', hok, hid, _, _, _, _, _, hmem⟩ :=
    createPersona_success regEmpty inputSolver none "id1" "T"
      (by decide) (by decide) (by decide)
  rw [hok]
  constructor
  · simp [Except.map, hid]
  · simp [Except.map, hmem]

/-- C7 — `createPersona` fails, and fails with `NameConflict` on the
input name, if and only if the input name equals some active record's
name (exact, case-sensitive string equality); a name matching only
archived records never blocks.  A failing call returns no new registry
value, so in-memory state is unchanged: the event semantics records
this as `applyMut` leaving the registry untouched and not re-arming the
debounce timer. -/
theorem createPersona_conflict_iff (r : Registry) (input : CreatePersonaInput)
    (origId : Option String) (newId now : String) :
    (createPersona r input origId newId now = .error (.nameConflict input.name)
      ↔ input.name ∈ activeNames r)
    ∧ ((∃ e, createPersona r input origId newId now = .error e)
      ↔ input.name ∈ activeNames r)
    ∧ (input.name ∈ activeNames r →
        applyMut r (.createOp input newId) now = (r, false)) := by
  by_cases h : input.name ∈ activeNames r
  · refine ⟨by simp [createPersona, h], by simp [createPersona, h], fun _ => ?_⟩
    simp [applyMut, createPersona, h]
  · exact ⟨by simp [createPersona, h], by simp [createPersona, h], fun hc => absurd hc h⟩

def pFirst : Persona :=
  { id := "1", name := "Solver", description := none, instructions := none,
    tags := none, settings := none, createdAt := "t0", updatedAt := "t0",
    changelog := [⟨"t0", "created", none⟩] }

def regOneSolver : Registry :=
  { personas := [("1", pFirst)], archivedPersonas := [], isDirty := false,
    autoSaveEnabled := true, debounceSaveMs := 5000 }

/-- Closed witness: a second "Solver" is rejected with `NameConflict`
and the collections are untouched; an archived-only name would not be in
`activeNames`, so the iff makes it non-blocking. -/
theorem createPersona_conflict_iff_witness :
    createPersona regOneSolver inputSolver none "id2" "T"
        = Except.error (RegErr.nameConflict "Solver")
    ∧ applyMut regOneSolver (.createOp inputSolver "id2") "T"
        = (regOneSolver, false) := by
  have h := createPersona_conflict_iff regOneSolver inputSolver none "id2" "T"
  exact ⟨h.1.mpr (by decide), h.2.2 (by decide)⟩

/-! ### C8 / C10: archivePersona -/

/-- C8 — `archivePersona` on a non-active id returns `false` and changes
nothing; on an active id it returns `true`, stores the record —
with exactly one `archived` changelog entry appended — in `archived`
under the same id, and afterwards `getPersona` is not-found and the id
appears in no `listPersonas()` or `findByTag` result.  The keyed-map
hypothesis states that the active map keys records by their own id,
which every registry operation maintains (see the C9 invariant). -/
theorem archivePersona_spec (r : Registry) (id now : String)
    (hwf : ∀ kp ∈ r.personas, kp.1 = kp.2.id) :
    (alistGet r.personas id = none → archivePersona r id now = (false, r))
    ∧ (∀ p, alistGet r.personas id = some p →
        (archivePersona r id now).1 = true
        ∧ alistGet (archivePersona r id now).2.archivedPersonas id
            = some { p with changelog := p.changelog ++ [⟨now, "archived", none⟩] }
        ∧ getPersona (archivePersona r id now).2 id = none
        ∧ (∀ q ∈ listPersonas (archivePersona r id now).2, q.id ≠ id)
        ∧ (∀ tag, ∀ q ∈ findByTag (archivePersona r id now).2 tag, q.id ≠ id)) := by
  constructor
  · intro h; simp [archivePersona, h]
  · intro p hp
    have hlist : ∀ q ∈ listPersonas (archivePersona r id now).2, q.id ≠ id := by
      intro q hq
      simp only [archivePersona, hp, listPersonas] at hq
      obtain ⟨k, hk⟩ := mem_values_iff.mp hq
      have h1 := mem_alistDelete.mp hk
      have h2 : k = q.id := hwf (k, q) h1.1
      exact h2 ▸ h1.2
    refine ⟨by simp [archivePersona, hp], ?_, ?_, hlist, ?_⟩
    · simp only [archivePersona, hp]
      exact alistGet_set_self _ _ _
    · simp only [archivePersona, hp, getPersona]
      exact alistGet_delete_self _ _
    · intro tag q hq
      refine hlist q ?_
      simp only [findByTag] at hq
      simp only [archivePersona, hp, listPersonas] at *
      exact List.mem_of_mem_filter hq

def pTagged : Persona :=
  { id := "1", name := "Solver", description := none, instructions := none,
    tags := some ["math"], settings := none, createdAt := "t0", updatedAt := "t0",
    changelog := [⟨"t0", "created", none⟩] }

def regTagged : Registry :=
  { personas := [("1", pTagged)], archivedPersonas := [], isDirty := false,
    autoSaveEnabled := true, debounceSaveMs := 5000 }

/-- Closed witness: archiving the only active record succeeds and the id
is gone from `getPersona`. -/
theorem archivePersona_spec_witness :
    (archivePersona regTagged "1" "T").1 = true
    ∧ getPersona (archivePersona regTagged "1" "T").2 "1" = none := by
  have h := (archivePersona_spec regTagged "1" "T" (by decide)).2 pTagged (by decide)
  exact ⟨h.1, h.2.2.1⟩

/-- C10 — archiving changes only the changelog: the archived copy keeps
id, name, description, instructions, tags, settings, `createdAt` and —
in particular — `updatedAt` exactly as they were, and its changelog is
the old one with exactly one `archived` entry appended. -/
theorem archivePersona_frame (r : Registry) (id now : String) (p : Persona)
    (hp : alistGet r.personas id = some p) :
    ((alistGet (archivePersona r id now).2.archivedPersonas id).map Persona.id
        = some p.id)
    ∧ ((alistGet (archivePersona r id now).2.archivedPersonas id).map Persona.name
        = some p.name)
    ∧ ((alistGet (archivePersona r id now).2.archivedPersonas id).map Persona.description
        = some p.description)
    ∧ ((alistGet (archivePersona r id now).2.archivedPersonas id).map Persona.instructions
        = some p.instructions)
    ∧ ((alistGet (archivePersona r id now).2.archivedPersonas id).map Persona.tags
        = some p.tags)
    ∧ ((alistGet (archivePersona r id now).2.archivedPersonas id).map Persona.settings
        = some p.settings)
    ∧ ((alistGet (archivePersona r id now).2.archivedPersonas id).map Persona.createdAt
        = some p.createdAt)
    ∧ ((alistGet (archivePersona r id now).2.archivedPersonas id).map Persona.updatedAt
        = some p.updatedAt)
    ∧ ((alistGet (archivePersona r id now).2.archivedPersonas id).map Persona.changelog
        = some (p.changelog ++ [⟨now, "archived", none⟩])) := by
  simp only [archivePersona, hp]
  rw [alistGet_set_self]
  simp

def pFramed : Persona :=
  { id := "7", name := "Keep", description := some "d", instructions := some "i",
    tags := some ["t"], settings := some [("k", JVal.scalar (JScalar.num 3))],
    createdAt := "t0", updatedAt := "t1",
    changelog := [⟨"t0", "created", none⟩] }

def regFramed : Registry :=
  { personas := [("7", pFramed)], archivedPersonas := [], isDirty := false,
    autoSaveEnabled := true, debounceSaveMs := 5000 }

/-- Closed witness: the archived copy keeps `updatedAt = "t1"` and gains
exactly the one `archived` entry. -/
theorem archivePersona_frame_witness :
    ((alistGet (archivePersona regFramed "7" "t9").2.archivedPersonas "7").map
        Persona.updatedAt = some "t1")
    ∧ ((alistGet (archivePersona regFramed "7" "t9").2.archivedPersonas "7").map
        Persona.changelog
        = some [⟨"t0", "created", none⟩, ⟨"t9", "archived", none⟩]) := by
  have h := archivePersona_frame regFramed "7" "t9" pFramed (by decide)
  exact ⟨h.2.2.2.2.2.2.2.1, h.2.2.2.2.2.2.2.2⟩

/-! ### C9: id-uniqueness invariant -/

theorem mem_keys_of_get {α : Type} {m : List (String × α)} {k : String}
    {v : α} (h : alistGet m k = some v) : k ∈ m.map Prod.fst :=
  List.mem_map_of_mem Prod.fst (alistGet_mem h)

/-- Every id in either collection. -/
def allKeys (r : Registry) : List String :=
  r.personas.map Prod.fst ++ r.archivedPersonas.map Prod.fst

/-- The registry invariant: both collections key every record by the
record's own id, each collection's id-set has no duplicates, and the two
id-sets are disjoint — so each record's id lives in exactly one
collection. -/
def RegistryWf (r : Registry) : Prop :=
  (∀ kp ∈ r.personas, kp.1 = kp.2.id)
  ∧ (∀ kp ∈ r.archivedPersonas, kp.1 = kp.2.id)
  ∧ (r.personas.map Prod.fst).Nodup
  ∧ (r.archivedPersonas.map Prod.fst).Nodup
  ∧ ∀ k ∈ r.personas.map Prod.fst, k ∉ r.archivedPersonas.map Prod.fst

theorem createPersona_wf {r : Registry} {input : CreatePersonaInput}
    {origId : Option String} {newId now : String} {p : Persona} {r' : Registry}
    (hwf : RegistryWf r) (hfresh : newId ∉ allKeys r)
    (h : createPersona r input origId newId now = .ok (p, r')) :
    RegistryWf r' := by
  obtain ⟨hka, hkb, hna, hnb, hdisj⟩ := hwf
  simp only [allKeys, List.mem_append] at hfresh
  push_neg at hfresh
  unfold createPersona at h
  by_cases hc : input.name ∈ activeNames r
  · rw [if_pos hc] at h; simp at h
  · rw [if_neg hc] at h
    simp only [Except.ok.injEq, Prod.mk.injEq] at h
    obtain ⟨-, hr⟩ := h
    subst hr
    refine ⟨?_, hkb, ?_, hnb, ?_⟩
    · intro kp hkp
      rcases mem_alistSet hkp with heq | hmem
      · subst heq; rfl
      · exact hka kp hmem
    · rw [alistSet_of_not_mem _ hfresh.1]
      simp [List.Nodup.append, hna, hfresh.1]
    · intro k hk
      rw [alistSet_of_not_mem _ hfresh.1] at hk
      simp only [List.map_append, List.mem_append, List.map_cons, List.map_nil,
        List.mem_singleton] at hk
      rcases hk with hk | hk
      · exact hdisj k hk
      · exact hk ▸ hfresh.2

theorem updateApply_wf {r : Registry} {id : String} {persona : Persona}
    {u : UpdateInput} {now : String} (hwf : RegistryWf r)
    (hg : alistGet r.personas id = some persona) :
    RegistryWf (updateApply r id persona u now).2.1 := by
  obtain ⟨hka, hkb, hna, hnb, hdisj⟩ := hwf
  have hid : id = persona.id := hka (id, persona) (alistGet_mem hg)
  have hidk : id ∈ r.personas.map Prod.fst := mem_keys_of_get hg
  unfold updateApply
  by_cases hcf : (changedFields persona u).isEmpty
  · rw [if_pos hcf]
    exact ⟨hka, hkb, hna, hnb, hdisj⟩
  · rw [if_neg hcf]
    refine ⟨?_, hkb, ?_, hnb, ?_⟩
    · intro kp hkp
      rcases mem_alistSet hkp with heq | hmem
      · subst heq; exact hid
      · exact hka kp hmem
    · rw [keys_alistSet_of_mem _ hidk]; exact hna
    · rw [keys_alistSet_of_mem _ hidk]; exact hdisj

theorem updatePersona_wf {r : Registry} {id : String} {u : UpdateInput}
    {now : String} {p : Persona} {r' : Registry} {cf : List String}
    (hwf : RegistryWf r) (h : updatePersona r id u now = .ok (p, r', cf)) :
    RegistryWf r' := by
  cases hg : alistGet r.personas id with
  | none =>
      simp only [updatePersona, hg] at h
      split at h <;> simp at h
  | some persona =>
      simp only [updatePersona, hg] at h
      have main : ∀ X : Persona × Registry × List String,
          Except.ok (ε := RegErr) X = .ok (p, r', cf) →
          RegistryWf X.2.1 → RegistryWf r' := by
        intro X hX hw
        injection hX with hX
        subst hX
        exact hw
      cases hn : u.name with
      | none =>
          simp only [hn] at h
          exact main _ h (updateApply_wf hwf hg)
      | some n =>
          simp only [hn] at h
          split at h
          · simp at h
          · exact main _ h (updateApply_wf hwf hg)

theorem archivePersona_wf (r : Registry) (id now : String)
    (hwf : RegistryWf r) : RegistryWf (archivePersona r id now).2 := by
  obtain ⟨hka, hkb, hna, hnb, hdisj⟩ := hwf
  cases hg : alistGet r.personas id with
  | none => simpa [archivePersona, hg] using ⟨hka, hkb, hna, hnb, hdisj⟩
  | some p =>
      have hid : id = p.id := hka (id, p) (alistGet_mem hg)
      have hidk : id ∈ r.personas.map Prod.fst := mem_keys_of_get hg
      have hnotarch : id ∉ r.archivedPersonas.map Prod.fst := hdisj id hidk
      simp only [archivePersona, hg]
      refine ⟨?_, ?_, ?_, ?_, ?_⟩
      · intro kp hkp
        exact hka kp (mem_alistDelete.mp hkp).1
      · intro kp hkp
        rcases mem_alistSet hkp with heq | hmem
        · subst heq; exact hid
        · exact hkb kp hmem
      · exact hna.sublist (keys_delete_sublist _ _)
      · rw [alistSet_of_not_mem _ hnotarch]
        simp [List.Nodup.append, hnb, hnotarch]
      · intro k hk
        have h1 := mem_keys_delete hk
        rw [alistSet_of_not_mem _ hnotarch]
        simp only [List.map_append, List.mem_append, List.map_cons, List.map_nil,
          List.mem_singleton]
        rintro (harch | hkid)
        · exact hdisj k h1.1 harch
        · exact h1.2 hkid

theorem duplicatePersona_wf {r : Registry} {originalId newId now : String}
    {p : Persona} {r' : Registry} (hwf : RegistryWf r)
    (hfresh : newId ∉ allKeys r)
    (h : duplicatePersona r originalId newId now = .ok (p, r')) :
    RegistryWf r' := by
  cases hg : alistGet r.personas originalId with
  | none =>
      simp only [duplicatePersona, hg] at h
      split at h <;> simp at h
  | some orig =>
      simp only [duplicatePersona, hg] at h
      cases hf : findAvailableCopyName r orig.name with
      | error e => simp only [hf] at h; simp at h
      | ok nm => simp only [hf] at h; exact createPersona_wf hwf hfresh h

/-- C9 — Assuming freshly generated ids are distinct from all existing
ids, every operation preserves the invariant that the two collections
are keyed by record id with disjoint, duplicate-free id-sets — i.e.
each record's id appears in exactly one collection. -/
theorem registry_invariant_preserved (r : Registry) (hwf : RegistryWf r) :
    (∀ (input : CreatePersonaInput) (origId : Option String)
        (newId now : String) (p : Persona) (r' : Registry),
        newId ∉ allKeys r →
        createPersona r input origId newId now = .ok (p, r') → RegistryWf r')
    ∧ (∀ (id : String) (u : UpdateInput) (now : String) (p : Persona)
        (r' : Registry) (cf : List String),
        updatePersona r id u now = .ok (p, r', cf) → RegistryWf r')
    ∧ (∀ (originalId newId now : String) (p : Persona) (r' : Registry),
        newId ∉ allKeys r →
        duplicatePersona r originalId newId now = .ok (p, r') → RegistryWf r')
    ∧ (∀ id now : String, RegistryWf (archivePersona r id now).2) :=
  ⟨fun _ _ _ _ _ _ hfresh h => createPersona_wf hwf hfresh h,
   fun _ _ _ _ _ _ h => updatePersona_wf hwf h,
   fun _ _ _ _ _ hfresh h => duplicatePersona_wf hwf hfresh h,
   fun id now => archivePersona_wf r id now hwf⟩

def pInv1 : Persona :=
  { id := "1", name := "A", description := none, instructions := none,
    tags := none, settings := none, createdAt := "t0", updatedAt := "t0",
    changelog := [⟨"t0", "created", none⟩] }

def pInv2 : Persona :=
  { id := "2", name := "B", description := none, instructions := none,
    tags := none, settings := none, createdAt := "t0", updatedAt := "t0",
    changelog := [⟨"t0", "created", none⟩] }

def regInv : Registry :=
  { personas := [("1", pInv1), ("2", pInv2)], archivedPersonas := [],
    isDirty := false, autoSaveEnabled := true, debounceSaveMs := 5000 }

/-- Closed witness: archiving one of two records keeps the invariant. -/
theorem registry_invariant_preserved_witness :
    RegistryWf (archivePersona regInv "1" "T").2 :=
  (registry_invariant_preserved regInv
    ⟨by decide, by decide, by decide, by decide, by decide⟩).2.2.2 "1" "T"

/-! ### C2 / C3: updatePersona -/

/-- C2 — An update in which every present field equals the record's
current value (structural equality on the ordered `tags`/`settings`
values, which is what the source's `JSON.stringify` comparison decides;
plain value equality otherwise) is a no-op: `updatePersona` returns the
existing record itself — `updatedAt` untouched, no changelog entry —
with the registry value unchanged, so the dirty flag is not set and no
save is scheduled. -/
theorem updatePersona_noop (r : Registry) (id now : String) (p : Persona)
    (u : UpdateInput)
    (hp : alistGet r.personas id = some p)
    (hn : u.name = none ∨ u.name = some p.name)
    (hd : u.description = none ∨ u.description = some p.description)
    (hi : u.instructions = none ∨ u.instructions = some p.instructions)
    (ht : u.tags = none ∨ u.tags = some p.tags)
    (hs : u.settings = none ∨ u.settings = some p.settings) :
    updatePersona r id u now = .ok (p, r, []) := by
  have hcf : changedFields p u = [] := by
    unfold changedFields
    rcases hn with hn | hn <;> rcases hd with hd | hd <;>
      rcases hi with hi | hi <;> rcases ht with ht | ht <;>
      rcases hs with hs | hs <;>
      simp [hn, hd, hi, ht, hs]
  have happ : updateApply r id p u now = (p, r, []) := by
    simp [updateApply, hcf]
  rcases hn with hn | hn
  · simp only [updatePersona, hp, hn, happ]
  · simp only [updatePersona, hp, hn]
    rw [if_neg (by simp)]
    rw [happ]

def pNoop : Persona :=
  { id := "1", name := "A", description := some "d", instructions := none,
    tags := some ["x"], settings := some [("k", JVal.scalar (JScalar.jbool true))],
    createdAt := "t0", updatedAt := "t5",
    changelog := [⟨"t0", "created", none⟩] }

def regNoop : Registry :=
  { personas := [("1", pNoop)], archivedPersonas := [], isDirty := false,
    autoSaveEnabled := true, debounceSaveMs := 5000 }

def uNoop : UpdateInput :=
  { name := some "A", description := some (some "d"), instructions := none,
    tags := some (some ["x"]),
    settings := some (some [("k", JVal.scalar (JScalar.jbool true))]) }

/-- Closed witness: presenting every field with its current value
returns the record with `updatedAt` still `"t5"` and the registry value
unchanged. -/
theorem updatePersona_noop_witness :
    updatePersona regNoop "1" uNoop "t9" = .ok (pNoop, regNoop, []) :=
  updatePersona_noop regNoop "1" "t9" pNoop uNoop (by decide)
    (Or.inr rfl) (Or.inr rfl) (Or.inl rfl) (Or.inr rfl) (Or.inr rfl)

def pUnnamed : Persona :=
  { id := "1", name := "", description := none, instructions := none,
    tags := none, settings := none, createdAt := "t0", updatedAt := "t0",
    changelog := [⟨"t0", "created", none⟩] }

def pNamedB : Persona :=
  { id := "2", name := "B", description := none, instructions := none,
    tags := none, settings := none, createdAt := "t0", updatedAt := "t0",
    changelog := [⟨"t0", "created", none⟩] }

def regEmptyName : Registry :=
  { personas := [("1", pUnnamed), ("2", pNamedB)], archivedPersonas := [],
    isDirty := false, autoSaveEnabled := true, debounceSaveMs := 5000 }

def uEmptyName : UpdateInput :=
  { name := some "", description := none, instructions := none,
    tags := none, settings := none }

/-- `true` exactly on a successful (`.ok`) result. -/
def exceptIsOk {ε α : Type} : Except ε α → Bool
  | .ok _ => true
  | .error _ => false

/-- C3 counterexample — the claim fails on the code for the empty-string
name: record "2" ("B") is active, the update's name field is present
(`some ""`) and differs from "B", and another active record ("1") is
named `""`, yet `updatePersona` succeeds and renames "2" to `""` instead
of failing with `NameConflict`: the source guards the collision check
with the truthiness test `if (updates.name && ...)`, and `""` is falsy. -/
theorem updatePersona_name_conflict_cex :
    alistGet regEmptyName.personas "2" = some pNamedB
    ∧ uEmptyName.name = some ""
    ∧ ("" : String) ≠ pNamedB.name
    ∧ alistGet regEmptyName.personas "1" = some pUnnamed
    ∧ pUnnamed.name = ""
    ∧ exceptIsOk (updatePersona regEmptyName "2" uEmptyName "T") = true
    ∧ (updatePersona regEmptyName "2" uEmptyName "T").map (fun x => x.1.name)
        = .ok "" :=
  ⟨rfl, rfl, by decide, rfl, rfl, rfl, rfl⟩

/-- C3 (amended) — for every active record and every partial update
whose name field is present, **non-empty**, and differs from the
record's current name, a new name equal to some other active record's
name makes `updatePersona` fail with `NameConflict`; the error is thrown
before any mutation, so the collections are unchanged. -/
theorem updatePersona_name_conflict (r : Registry) (id now n : String)
    (p : Persona) (u : UpdateInput)
    (hp : alistGet r.personas id = some p)
    (hn : u.name = some n) (hne : n ≠ "") (hdiff : n ≠ p.name)
    (hcol : n ∈ activeNames r) :
    updatePersona r id u now = .error (.nameConflict n) := by
  simp only [updatePersona, hp, hn]
  rw [if_pos ⟨hne, hdiff, hcol⟩]

def uToA : UpdateInput :=
  { name := some "A", description := none, instructions := none,
    tags := none, settings := none }

/-- Closed witness: renaming "B" to the already-active non-empty name
"A" fails with `NameConflict`. -/
theorem updatePersona_name_conflict_witness :
    updatePersona regInv "2" uToA "T" = .error (.nameConflict "A") :=
  updatePersona_name_conflict regInv "2" "T" "A" pInv2 uToA
    (by decide) rfl (by decide) (by decide) (by decide)

/-! ### C4: the copy-name algorithm -/

theorem findFrom_ok (used : List String) (root : String) :
    ∀ (fuel c k : Nat), c ≤ k → k < c + fuel →
      copyName root k ∉ used →
      (∀ j, c ≤ j → j < k → copyName root j ∈ used) →
      findFrom used root c fuel = .ok (copyName root k) := by
  intro fuel
  induction fuel with
  | zero => intro c k hck hlt _ _; omega
  | succ n ih =>
      intro c k hck hlt hnot hmin
      simp only [findFrom]
      by_cases hc : copyName root c ∈ used
      · rw [if_pos hc]
        have hck' : c < k := by
          rcases Nat.lt_or_ge c k with h | h
          · exact h
          · exact absurd (Nat.le_antisymm hck h ▸ hc) hnot
        exact ih (c + 1) k hck' (by omega) hnot
          (fun j hj hjk => hmin j (by omega) hjk)
      · rw [if_neg hc]
        have hceq : c = k := by
          by_contra hne
          exact hc (hmin c le_rfl (lt_of_le_of_ne hck hne))
        rw [hceq]

theorem findFrom_exhaust (used : List String) (root : String) :
    ∀ (fuel c : Nat), (∀ j, c ≤ j → j < c + fuel → copyName root j ∈ used) →
      findFrom used root c fuel = .error (.internalLimit root) := by
  intro fuel
  induction fuel with
  | zero => intro c _; rfl
  | succ n ih =>
      intro c hall
      simp only [findFrom]
      rw [if_pos (hall c le_rfl (by omega))]
      exact ih (c + 1) (fun j hj hjn => hall j (by omega) (by omega))

/-- C4 (amended) — duplicating an active record assigns the new record
the first name unused among the union of active and archived names in
the sequence `root - Copy`, `root - Copy - 2`, `root - Copy - 3`, …,
where `root` is the record's name with any `" - Copy"` /
`" - Copy - <n>"` suffix stripped provided the prefix before the suffix
contains no line-terminator characters (the regex matches the prefix
with `.`, which excludes them) and the name itself otherwise; when all
1000 attempted names are taken it fails with the internal-limit error. -/
theorem duplicatePersona_copy_name (r : Registry)
    (originalId newId now : String) (p : Persona)
    (hp : alistGet r.personas originalId = some p) :
    ((∀ k, 1 ≤ k → k ≤ 1000 → copyName (stripCopySuffix p.name) k ∈ usedNames r) →
      duplicatePersona r originalId newId now
        = .error (.internalLimit (stripCopySuffix p.name)))
    ∧ (∀ k, 1 ≤ k → k ≤ 1000 →
        copyName (stripCopySuffix p.name) k ∉ usedNames r →
        (∀ j, 1 ≤ j → j < k → copyName (stripCopySuffix p.name) j ∈ usedNames r) →
        (duplicatePersona r originalId newId now).map (fun x => x.1.name)
          = .ok (copyName (stripCopySuffix p.name) k)) := by
  constructor
  · intro hall
    have hex : findAvailableCopyName r p.name
        = .error (.internalLimit (stripCopySuffix p.name)) := by
      rw [findAvailableCopyName]
      exact findFrom_exhaust _ _ 1000 1 (fun j h1 h2 => hall j h1 (by omega))
    simp only [duplicatePersona, hp, hex]
  · intro k h1 h1000 hnot hmin
    have hfind : findAvailableCopyName r p.name
        = .ok (copyName (stripCopySuffix p.name) k) := by
      rw [findAvailableCopyName]
      exact findFrom_ok _ _ 1000 1 k h1 (by omega) hnot hmin
    have hact : copyName (stripCopySuffix p.name) k ∉ activeNames r := by
      intro hmem
      apply hnot
      simp only [usedNames, activeNames] at *
      exact List.mem_append_left _ hmem
    simp only [duplicatePersona, hp, hfind]
    unfold createPersona
    rw [if_neg hact]
    rfl

/-- Modelled from the spec's wording of the copy-name root ("`X` with
any existing `\" - Copy\"` or `\" - Copy - <n>\"` suffix stripped,
otherwise `X` itself"): the same suffix stripping with no condition on
the prefix. -/
def specStripCopySuffix (name : String) : String :=
  let rev := name.data.reverse
  if (" - Copy".data.reverse).isPrefixOf rev then
    String.mk (rev.drop 7).reverse
  else
    let ds := rev.takeWhile Char.isDigit
    let rest := rev.drop ds.length
    if !ds.isEmpty && (" - Copy - ".data.reverse).isPrefixOf rest then
      String.mk (rest.drop 10).reverse
    else
      name

/-- The copy name the claim's algorithm would assign: the first unused
candidate over the spec-worded root. -/
def specFirstCopyName (used : List String) (name : String) :
    Except RegErr String :=
  findFrom used (specStripCopySuffix name) 1 1000

def pNewline : Persona :=
  { id := "1", name := "A\nB - Copy", description := none, instructions := none,
    tags := none, settings := none, createdAt := "t0", updatedAt := "t0",
    changelog := [⟨"t0", "created", none⟩] }

def regNewline : Registry :=
  { personas := [("1", pNewline)], archivedPersonas := [], isDirty := false,
    autoSaveEnabled := true, debounceSaveMs := 5000 }

/-- C4 counterexample — the claim fails on the code when the name's
prefix contains a line terminator: duplicating the sole active record
named `"A\nB - Copy"` yields `"A\nB - Copy - Copy"`, because `.` in
`/^(.*) - Copy(?: - (\d+))?$/` does not match the newline and the regex
fails, so the suffix is not stripped; the claim's unconditional
stripping predicts root `"A\nB"` and first unused name
`"A\nB - Copy - 2"`. -/
theorem duplicatePersona_copy_name_cex :
    (duplicatePersona regNewline "1" "2" "T").map (fun x => x.1.name)
        = .ok "A\nB - Copy - Copy"
    ∧ specFirstCopyName (usedNames regNewline) "A\nB - Copy"
        = .ok "A\nB - Copy - 2"
    ∧ ("A\nB - Copy - Copy" : String) ≠ "A\nB - Copy - 2" :=
  ⟨rfl, rfl, by decide⟩

def pPlainX : Persona :=
  { id := "1", name := "X", description := none, instructions := none,
    tags := none, settings := none, createdAt := "t0", updatedAt := "t0",
    changelog := [⟨"t0", "created", none⟩] }

def regPlainX : Registry :=
  { personas := [("1", pPlainX)], archivedPersonas := [], isDirty := false,
    autoSaveEnabled := true, debounceSaveMs := 5000 }

/-- Closed witness: duplicating "X" with no copies existing yields the
first candidate "X - Copy". -/
theorem duplicatePersona_copy_name_witness :
    (duplicatePersona regPlainX "1" "2" "T").map (fun x => x.1.name)
        = .ok (copyName (stripCopySuffix "X") 1) :=
  (duplicatePersona_copy_name regPlainX "1" "2" "T" pPlainX (by decide)).2
    1 le_rfl (by omega) (by decide) (fun j h1 hj => absurd hj (by omega))

/-! ### C1: debounce coalescing -/

theorem createPersona_ok_state {r : Registry} {input : CreatePersonaInput}
    {origId : Option String} {newId now : String} {p : Persona} {r' : Registry}
    (h : createPersona r input origId newId now = .ok (p, r')) :
    r'.isDirty = true ∧ r'.autoSaveEnabled = r.autoSaveEnabled := by
  unfold createPersona at h
  by_cases hc : input.name ∈ activeNames r
  · rw [if_pos hc] at h; simp at h
  · rw [if_neg hc] at h
    simp only [Except.ok.injEq, Prod.mk.injEq] at h
    obtain ⟨-, hr⟩ := h
    subst hr
    exact ⟨rfl, rfl⟩

theorem updateApply_state (r : Registry) (id : String) (persona : Persona)
    (u : UpdateInput) (now : String) :
    (updateApply r id persona u now).2.1.autoSaveEnabled = r.autoSaveEnabled
    ∧ ((updateApply r id persona u now).2.2 ≠ [] →
        (updateApply r id persona u now).2.1.isDirty = true) := by
  simp only [updateApply]
  split
  · exact ⟨rfl, fun hne => absurd rfl hne⟩
  · exact ⟨rfl, fun _ => rfl⟩

theorem updatePersona_ok_state {r : Registry} {id : String} {u : UpdateInput}
    {now : String} {p : Persona} {r' : Registry} {cf : List String}
    (h : updatePersona r id u now = .ok (p, r', cf)) :
    r'.autoSaveEnabled = r.autoSaveEnabled ∧ (cf ≠ [] → r'.isDirty = true) := by
  cases hg : alistGet r.personas id with
  | none =>
      simp only [updatePersona, hg] at h
      split at h <;> simp at h
  | some persona =>
      simp only [updatePersona, hg] at h
      have happ := updateApply_state r id persona u now
      have main : ∀ X : Persona × Registry × List String,
          Except.ok (ε := RegErr) X = .ok (p, r', cf) →
          (X.2.1.autoSaveEnabled = r.autoSaveEnabled
            ∧ (X.2.2 ≠ [] → X.2.1.isDirty = true)) →
          r'.autoSaveEnabled = r.autoSaveEnabled ∧ (cf ≠ [] → r'.isDirty = true) := by
        intro X hX hw
        injection hX with hX
        subst hX
        exact hw
      cases hn : u.name with
      | none =>
          simp only [hn] at h
          exact main _ h happ
      | some n =>
          simp only [hn] at h
          split at h
          · simp at h
          · exact main _ h happ

theorem archivePersona_state (r : Registry) (id now : String) :
    (archivePersona r id now).2.autoSaveEnabled = r.autoSaveEnabled
    ∧ ((archivePersona r id now).1 = true →
        (archivePersona r id now).2.isDirty = true) := by
  cases hg : alistGet r.personas id with
  | none => simp [archivePersona, hg]
  | some p => simp [archivePersona, hg]

theorem applyMut_auto (r : Registry) (op : RegOp) (now : String) :
    (applyMut r op now).1.autoSaveEnabled = r.autoSaveEnabled := by
  cases op with
  | createOp input newId =>
      cases h : createPersona r input none newId now with
      | error e => simp [applyMut, h]
      | ok pr =>
          obtain ⟨p, r'⟩ := pr
          simp only [applyMut, h]
          exact (createPersona_ok_state h).2
  | updateOp id u =>
      cases h : updatePersona r id u now with
      | error e => simp [applyMut, h]
      | ok prc =>
          obtain ⟨p, r', cf⟩ := prc
          simp only [applyMut, h]
          exact (updatePersona_ok_state h).1
  | archiveOp id =>
      have h := (archivePersona_state r id now).1
      cases harch : archivePersona r id now with
      | mk b r' =>
          rw [harch] at h
          simp only [applyMut, harch]
          exact h
  | flushOp => rfl

theorem applyMut_armed_dirty (r : Registry) (op : RegOp) (now : String)
    (h : (applyMut r op now).2 = true) :
    (applyMut r op now).1.isDirty = true := by
  cases op with
  | createOp input newId =>
      cases hc : createPersona r input none newId now with
      | error e => simp [applyMut, hc] at h
      | ok pr =>
          obtain ⟨p, r'⟩ := pr
          simp only [applyMut, hc]
          exact (createPersona_ok_state hc).1
  | updateOp id u =>
      cases hc : updatePersona r id u now with
      | error e => simp [applyMut, hc] at h
      | ok prc =>
          obtain ⟨p, r', cf⟩ := prc
          simp only [applyMut, hc] at h ⊢
          have hne : cf ≠ [] := by
            intro hnil
            subst hnil
            simp at h
          exact (updatePersona_ok_state hc).2 hne
  | archiveOp id =>
      have hst := (archivePersona_state r id now).2
      cases harch : archivePersona r id now with
      | mk b r' =>
          rw [harch] at hst
          simp only [applyMut, harch] at h ⊢
          exact hst h
  | flushOp => simp [applyMut] at h

theorem effectiveChain_cons {D : Nat} {r : Registry} {tp t : Nat} {op : RegOp}
    {evs : List (Nat × RegOp)}
    (h : effectiveChain D r tp ((t, op) :: evs) = true) :
    tp ≤ t ∧ t < tp + D ∧ op.isFlush = false
    ∧ (applyMut r op (toString t)).2 = true
    ∧ effectiveChain D (applyMut r op (toString t)).1 t evs = true := by
  simp only [effectiveChain, Bool.and_eq_true, decide_eq_true_eq,
    Bool.not_eq_true'] at h
  exact ⟨h.1.1.1.1, h.1.1.1.2, h.1.1.2, h.1.2, h.2⟩

theorem foldMut_auto :
    ∀ (evs : List (Nat × RegOp)) (r : Registry),
      (foldMut r evs).autoSaveEnabled = r.autoSaveEnabled := by
  intro evs
  induction evs with
  | nil => intro r; rfl
  | cons ev evs ih =>
      obtain ⟨t, op⟩ := ev
      intro r
      simp only [foldMut]
      rw [ih]
      exact applyMut_auto r op (toString t)

theorem foldMut_dirty (D : Nat) :
    ∀ (evs : List (Nat × RegOp)) (r : Registry) (tp : Nat),
      r.isDirty = true → effectiveChain D r tp evs = true →
      (foldMut r evs).isDirty = true := by
  intro evs
  induction evs with
  | nil => intro r tp hd _; exact hd
  | cons ev evs ih =>
      obtain ⟨t, op⟩ := ev
      intro r tp hd hch
      obtain ⟨-, -, -, h4, h5⟩ := effectiveChain_cons hch
      exact ih _ t (applyMut_armed_dirty r op (toString t) h4) h5

theorem runEvents_append (D : Nat) (a b : List (Nat × RegOp)) :
    ∀ s, runEvents D s (a ++ b) = runEvents D (runEvents D s a) b := by
  induction a with
  | nil => intro s; rfl
  | cons ev a ih =>
      obtain ⟨t, op⟩ := ev
      intro s
      simp only [List.cons_append, runEvents]
      exact ih _

theorem stepEv_mut {D : Nat} {t : Nat} {op : RegOp} (r : Registry)
    (d : Option Nat) (sv : List (Nat × PersonaStorageState))
    (hdue : ∀ x, d = some x → ¬ x ≤ t)
    (hflush : op.isFlush = false)
    (harm : (applyMut r op (toString t)).2 = true) :
    stepEv D ⟨r, d, sv⟩ t op
      = ⟨(applyMut r op (toString t)).1, some (t + D), sv⟩ := by
  have hfd : fireDue ⟨r, d, sv⟩ t = ⟨r, d, sv⟩ := by
    cases d with
    | none => rfl
    | some x => simp [fireDue, hdue x rfl]
  simp only [stepEv, hfd, hflush, Bool.false_eq_true, if_false]
  simp [harm]

theorem runEvents_chain (D : Nat) :
    ∀ (evs : List (Nat × RegOp)) (r : Registry) (tp : Nat)
      (sv : List (Nat × PersonaStorageState)),
      effectiveChain D r tp evs = true →
      runEvents D ⟨r, some (tp + D), sv⟩ evs
        = ⟨foldMut r evs, some (lastTime tp evs + D), sv⟩ := by
  intro evs
  induction evs with
  | nil => intro r tp sv _; rfl
  | cons ev evs ih =>
      obtain ⟨t, op⟩ := ev
      intro r tp sv hch
      obtain ⟨h1, h2, h3, h4, h5⟩ := effectiveChain_cons hch
      have hstep : stepEv D ⟨r, some (tp + D), sv⟩ t op
          = ⟨(applyMut r op (toString t)).1, some (t + D), sv⟩ :=
        stepEv_mut r (some (tp + D)) sv
          (by intro x hx; injection hx with hx; omega) h3 h4
      simp only [runEvents, foldMut, lastTime]
      rw [hstep]
      exact ih _ t sv h5

/-- C1 — Debounce coalescing.  Start from a registry with auto-save on
and no timer armed, and issue `N ≥ 1` mutating operations, each issued
within less than the debounce interval after the previous one and each
actually mutating (so each call re-arms the shared timer).  Then:
(1) the whole run performs exactly one storage-adapter save, at one
interval after the last mutation, and it carries the final in-memory
state; and
(2) if a `flush()` is issued after the last mutation but before the
interval elapses, exactly one save occurs — at the flush point, with the
final state — and the still-armed debounced save fires as a no-op,
saving nothing further. -/
theorem debounce_coalescing (D : Nat) (r0 : Registry) (t1 : Nat) (op1 : RegOp)
    (evs : List (Nat × RegOp)) (tf : Nat)
    (hauto : r0.autoSaveEnabled = true)
    (hchain : effectiveChain D r0 t1 ((t1, op1) :: evs) = true) :
    (finishRun (runEvents D ⟨r0, none, []⟩ ((t1, op1) :: evs))).saves
      = [(lastTime t1 evs + D, stateToSave (foldMut r0 ((t1, op1) :: evs)))]
    ∧ (lastTime t1 evs ≤ tf → tf < lastTime t1 evs + D →
        (finishRun (runEvents D ⟨r0, none, []⟩
            (((t1, op1) :: evs) ++ [(tf, RegOp.flushOp)]))).saves
          = [(tf, stateToSave (foldMut r0 ((t1, op1) :: evs)))]) := by
  obtain ⟨-, -, h3, h4, h5⟩ := effectiveChain_cons hchain
  have hstep1 : stepEv D ⟨r0, none, []⟩ t1 op1
      = ⟨(applyMut r0 op1 (toString t1)).1, some (t1 + D), []⟩ :=
    stepEv_mut r0 none [] (by intro x hx; cases hx) h3 h4
  have hrun : runEvents D ⟨r0, none, []⟩ ((t1, op1) :: evs)
      = ⟨foldMut r0 ((t1, op1) :: evs), some (lastTime t1 evs + D), []⟩ := by
    simp only [runEvents]
    rw [hstep1]
    exact runEvents_chain D evs _ t1 [] h5
  have hdirty : (foldMut r0 ((t1, op1) :: evs)).isDirty = true := by
    simp only [foldMut]
    exact foldMut_dirty D evs _ t1 (applyMut_armed_dirty r0 op1 (toString t1) h4) h5
  have hauto' : (foldMut r0 ((t1, op1) :: evs)).autoSaveEnabled = true := by
    simp only [foldMut]
    rw [foldMut_auto, applyMut_auto]
    exact hauto
  constructor
  · rw [hrun]
    simp [finishRun, fireTimer, hauto', hdirty]
  · intro htf1 htf2
    rw [runEvents_append, hrun]
    have hfd : fireDue ⟨foldMut r0 ((t1, op1) :: evs),
        some (lastTime t1 evs + D), []⟩ tf
        = ⟨foldMut r0 ((t1, op1) :: evs), some (lastTime t1 evs + D), []⟩ := by
      simp [fireDue]
      omega
    simp only [runEvents, stepEv, hfd, RegOp.isFlush, if_true]
    simp [finishRun, fireTimer]

def inputP1 : CreatePersonaInput :=
  { name := "P1", description := none, instructions := none,
    tags := none, settings := none }

def inputP2 : CreatePersonaInput :=
  { name := "P2", description := none, instructions := none,
    tags := none, settings := none }

/-- Closed witness: two creates 5 ticks apart under a 10-tick debounce
yield exactly one save at tick 15 carrying both records; with a flush at
tick 7 the single save happens at the flush instead. -/
theorem debounce_coalescing_witness :
    (finishRun (runEvents 10 ⟨regEmpty, none, []⟩
        [(0, RegOp.createOp inputP1 "a"), (5, RegOp.createOp inputP2 "b")])).saves
      = [(15, stateToSave (foldMut regEmpty
            [(0, RegOp.createOp inputP1 "a"), (5, RegOp.createOp inputP2 "b")]))]
    ∧ (finishRun (runEvents 10 ⟨regEmpty, none, []⟩
        [(0, RegOp.createOp inputP1 "a"), (5, RegOp.createOp inputP2 "b"),
         (7, RegOp.flushOp)])).saves
      = [(7, stateToSave (foldMut regEmpty
            [(0, RegOp.createOp inputP1 "a"), (5, RegOp.createOp inputP2 "b")]))] := by
  have h := debounce_coalescing 10 regEmpty 0 (RegOp.createOp inputP1 "a")
    [(5, RegOp.createOp inputP2 "b")] 7 rfl rfl
  exact ⟨h.1, h.2 (by decide) (by decide)⟩
